import Mathlib

/-!
# Verification of the gomd markdown lexer

Shallow embedding of the hand-rolled markdown scanner of the gomd
repository.  The repository carries iterative snapshots of one `parser`
package:

* `src/unnamed/part_000` (its second, later revision) — the channel-based
  block lexer with states `lexBlock`, `lexParagraph`, `lexAtxHeader`,
  `lexUl`, `lexSetTextHeader`.  Embedded below as the `P`-machine
  (`stepP` / `runP`).
* `src/markdown.go` (its second document) — an alternative revision with
  states `lexText`, `lexAtxHeader`, `lexHr`, `lexUl`, `lexOl` and helper
  `lexTextNewLine`.  Embedded as the `MD`-machine (`stepM` / `runM`).
* `src/parser/parser.go` — the public entry point `Lex` that drains the
  token channel into a slice of fixed length 200 (`drainGo` / `LexGo`).

Modelling conventions:

* Go strings are modelled as `List Char`; byte positions become character
  indices (all inputs of interest are ASCII, where the two coincide and
  every rune has width 1).
* The cursor (`Lexer`) carries `input`, `start`, `pos`, `width` exactly as
  the Go `lexer` struct does; `next` returns `none` for the `eof = -1`
  sentinel.
* Go loops whose termination is not structural are given explicit fuel.
  Inner scanning loops (`acceptRun`, the `lexUl`/`acceptUntilNewLine`
  scan, the `lexHr` loop) receive ample fuel `input.length + 1 - pos` at
  the call site, which is provably sufficient because every iteration
  either stops or advances `pos`.  The outer state-function loop of
  `run()` is driven by an explicit fuel parameter of `runGen`; exhaustion
  is reported as `RunOut.more` carrying the pending configuration, so
  non-termination of the Go scanner is observable as "still `more` at
  every fuel".
* Go panics (negative slice index in `lexParagraph`'s `l.input[l.pos-2:]`
  and `lexTextNewLine`, the unguarded `s[1]`/`s[2]` in `lexText`, and the
  out-of-range store `res[i]` in `Lex`) are modelled as explicit `crash`
  outcomes rather than silently truncated arithmetic.
* `unicode.IsLetter`/`IsDigit` are modelled by `Char.isAlpha`/`isDigit`;
  these agree on ASCII, which covers every character class the scanner
  compares against.
-/

/-- The cursor of the scanner: Go struct `lexer` (fields `input`, `start`,
`pos`, `width`; `name` and the channel are not part of the state). -/
structure Lexer where
  input : List Char
  start : Nat
  pos : Nat
  width : Nat
deriving DecidableEq, Repr

/-- Initial cursor for an input, as built by `lex(name, input)`. -/
def initL (s : List Char) : Lexer := ⟨s, 0, 0, 0⟩

/-- Go `next`: decode one rune or return the `eof` sentinel (here `none`)
without moving when the buffer is exhausted. -/
def nextL (l : Lexer) : Option Char × Lexer :=
  if h : l.pos < l.input.length then
    (some (l.input.get ⟨l.pos, h⟩), { l with pos := l.pos + 1, width := 1 })
  else
    (none, { l with width := 0 })

/-- Go `backup`: move `pos` back by the width of the last decode. -/
def backupL (l : Lexer) : Lexer := { l with pos := l.pos - l.width }

/-- Go `backupNSpaces`. -/
def backupNSpacesL (n : Nat) (l : Lexer) : Lexer := { l with pos := l.pos - n * l.width }

/-- Go `peek`: `next` followed by `backup`. -/
def peekL (l : Lexer) : Option Char × Lexer :=
  let p := nextL l
  (p.1, backupL p.2)

/-- Go `ignore`: drop the pending span. -/
def ignoreL (l : Lexer) : Lexer := { l with start := l.pos }

/-- Go `nextNTimes` (the collected runes are discarded by every caller). -/
def nextNTimesL : Nat → Lexer → Lexer
  | 0, l => l
  | n + 1, l => nextNTimesL n (nextL l).2

/-- Go `ignoreNext`. -/
def ignoreNextL (n : Nat) (l : Lexer) : Lexer := ignoreL (nextNTimesL n l)

/-- Go `accept`: absorb one rune if it lies in `valid`; `IndexRune` never
finds the `eof` sentinel, so end of input takes the backup branch. -/
def acceptL (valid : List Char) (l : Lexer) : Bool × Lexer :=
  match nextL l with
  | (some r, l') => if valid.contains r then (true, l') else (false, backupL l')
  | (none, l') => (false, backupL l')

/-- Loop body of Go `acceptRun`, with explicit fuel (see module comment). -/
def acceptRunF (valid : List Char) : Nat → Lexer → Nat × Lexer
  | 0, l => (0, backupL (nextL l).2)
  | fuel + 1, l =>
    match nextL l with
    | (some r, l') =>
      if valid.contains r then
        let p := acceptRunF valid fuel l'
        (p.1 + 1, p.2)
      else (0, backupL l')
    | (none, l') => (0, backupL l')

/-- Go `acceptRun`: accept successive members of `valid`, return the count.
Fuel `input.length + 1 - pos` always outlasts the loop. -/
def acceptRunL (valid : List Char) (l : Lexer) : Nat × Lexer :=
  acceptRunF valid (l.input.length + 1 - l.pos) l

/-- Go `ignoreRun`. -/
def ignoreRunL (c : Char) (l : Lexer) : Lexer := ignoreL (acceptRunL [c] l).2

/-- The pending span `l.input[l.start:l.pos]` cut by `emit`. -/
def extractL (l : Lexer) : List Char := (l.input.drop l.start).take (l.pos - l.start)

/-- Go `emit` without the token kind: value of the pending span, and the
cursor with the span reset. -/
def emitSpan (l : Lexer) : List Char × Lexer := (extractL l, { l with start := l.pos })

/-- Go `hp(s, d)` = `strings.HasPrefix(s, d)`. -/
def hpL (s d : List Char) : Bool := d.isPrefixOf s

/-- Go `isSpace`. -/
def isSpaceL (c : Char) : Bool := c = ' ' || c = '\t'

/-- Go `isEndOfLine`. -/
def isEndOfLineL (c : Char) : Bool := c = '\r' || c = '\n'

/-- Go `isAlphaNumeric` (`r == '_' || unicode.IsLetter(r) || unicode.IsDigit(r)`),
on the ASCII fragment. -/
def isAlphaNumericL (c : Char) : Bool := c = '_' || c.isAlpha || c.isDigit

/-- `isAlphaNumeric(rune(l.peek()))` where `peek` may return the `eof`
sentinel `-1`, which is in no character class. -/
def isAlphaNumericOpt : Option Char → Bool
  | some c => isAlphaNumericL c
  | none => false

/-- The `br` delimiter `"\r\n"`. -/
def brD : List Char := ['\r', '\n']

/-- The `hardBr` delimiter `"  " + br`. -/
def hardBrD : List Char := [' ', ' ', '\r', '\n']

/-- The Go `inlineChars` constant (letters, digits, common punctuation
including braces, apostrophe and double quote, and the space). -/
def inlineChars : List Char :=
  ("abcdefghijklmnopqrstuvwxyzABCDEFGHIJKLMNOPQRSTUVWXYZ1234567890").data ++
  ['!', '@', '#', '$', '%', '^', '&', '*', '(', ')', '_', '-', '[', ']',
   Char.ofNat 123, Char.ofNat 125, ';', Char.ofNat 39, ':', Char.ofNat 34,
   ',', '.', '/', '>', '?', ' ']

/-- Shared loop of `lexUl` (`part_000`) and `acceptUntilNewLine`
(`markdown.go`): advance while the remainder has no `br` prefix and the
next rune is not `eof`.  Fueled; a sufficient fuel is supplied at use. -/
def scanToBrF : Nat → Lexer → Lexer
  | 0, l => l
  | fuel + 1, l =>
    if hpL (l.input.drop l.pos) brD then l
    else
      let p := peekL l
      match p.1 with
      | none => p.2
      | some _ => scanToBrF fuel (nextL p.2).2

/-- `scanToBrF` with its sufficient fuel. -/
def scanToBrL (l : Lexer) : Lexer := scanToBrF (l.input.length + 1 - l.pos) l

/-! ## Generic fueled state machine

Go `run()` iterates `state = state(l)` until the state is `nil`.  `runGen`
executes `fuel` state-function invocations, collecting emitted tokens. -/

/-- What a single state function hands back: the next state, the `nil`
state (scan over, channel closed), or a Go runtime panic. -/
inductive StepNext (σ : Type) where
  | go (s : σ)
  | halt
  | crash
deriving DecidableEq, Repr

/-- Result of running the machine: fuel exhausted with a pending
configuration, or the scan ended (`run` returned / panicked). -/
inductive RunOut (σ : Type) where
  | more (l : Lexer) (s : σ)
  | halted
  | crashed
deriving DecidableEq, Repr

/-- Fueled driver for a state machine over the cursor. -/
def runGen {σ τ : Type} (step : Lexer → σ → Lexer × List τ × StepNext σ) :
    Nat → Lexer → σ → List τ × RunOut σ
  | 0, l, s => ([], .more l s)
  | fuel + 1, l, s =>
    match step l s with
    | (_, out, .halt) => (out, .halted)
    | (_, out, .crash) => (out, .crashed)
    | (l', out, .go s') =>
      let r := runGen step fuel l' s'
      (out ++ r.1, r.2)

theorem runGen_add {σ τ : Type} (step : Lexer → σ → Lexer × List τ × StepNext σ)
    (m n : Nat) (l : Lexer) (s : σ) :
    runGen step (m + n) l s =
      match runGen step m l s with
      | (out, .more l' s') => (out ++ (runGen step n l' s').1, (runGen step n l' s').2)
      | (out, o) => (out, o) := by
  induction m generalizing l s with
  | zero => simp [runGen]
  | succ m ih =>
    have hsum : m + 1 + n = (m + n) + 1 := by omega
    rw [hsum]
    simp only [runGen]
    rcases h : step l s with ⟨l', out, nx⟩
    cases nx with
    | halt => simp
    | crash => simp
    | go s' =>
      simp only [ih l' s']
      rcases h2 : runGen step m l' s' with ⟨out2, o2⟩
      cases o2 <;> simp [List.append_assoc]

/-- A configuration on which the state function makes no progress keeps
the machine spinning forever: tokens stop, fuel is never enough. -/
theorem runGen_fix {σ τ : Type} (step : Lexer → σ → Lexer × List τ × StepNext σ)
    (l : Lexer) (s : σ) (h : step l s = (l, [], .go s)) :
    ∀ fuel, runGen step fuel l s = ([], .more l s) := by
  intro fuel
  induction fuel with
  | zero => simp [runGen]
  | succ fuel ih => simp [runGen, h, ih]

/-- Once the scan has ended (normally or by panic), more fuel changes
nothing. -/
theorem runGen_stable {σ τ : Type} (step : Lexer → σ → Lexer × List τ × StepNext σ)
    (m n : Nat) (l : Lexer) (s : σ) (out : List τ) (o : RunOut σ)
    (hm : runGen step m l s = (out, o)) (ho : ∀ l' s', o ≠ .more l' s') :
    runGen step (m + n) l s = (out, o) := by
  rw [runGen_add, hm]
  cases o with
  | more l' s' => exact absurd rfl (ho l' s')
  | halted => rfl
  | crashed => rfl

/-- Emitted tokens are extended, never revised, as fuel grows. -/
theorem runGen_mono {σ τ : Type} (step : Lexer → σ → Lexer × List τ × StepNext σ)
    (m n : Nat) (l : Lexer) (s : σ) :
    (runGen step m l s).1 <+: (runGen step (m + n) l s).1 := by
  rw [runGen_add]
  rcases h : runGen step m l s with ⟨out, o⟩
  cases o with
  | more l' s' => exact ⟨(runGen step n l' s').1, rfl⟩
  | halted => simp
  | crashed => simp

/-! ## The `P` machine: second revision in `src/unnamed/part_000`

Token kinds (`itemType` iota block, lines 386–404) and the state functions
`lexBlock`, `lexParagraph` (entry check plus its `for` loop as separate
machine states, since that loop can spin forever), `lexAtxHeader`,
`lexUl`, `lexSetTextHeader`. -/

/-- `itemType` of the `part_000` revision. -/
inductive ItemTypeP where
  | itemParagraph
  | itemParagraphContinued
  | itemBlockQuote
  | itemUl
  | itemOl
  | itemCode
  | itemHr
  | itemH1
  | itemH2
  | itemH3
  | itemH4
  | itemH5
  | itemH6
  | itemEOF
  | itemNewLine
  | itemHardNewLine
  | itemError
deriving DecidableEq, Repr

/-- A token (`item`) of the `part_000` revision. -/
structure ItemP where
  typ : ItemTypeP
  val : List Char
deriving DecidableEq, Repr

/-- `emit` specialised to `P` tokens. -/
def emitP (l : Lexer) (t : ItemTypeP) : ItemP × Lexer :=
  let p := emitSpan l
  (⟨t, p.1⟩, p.2)

/-- Machine states of the `P` revision.  `paragraph t` is the entry of
`lexParagraph` (the setext check before the loop); `paraLoop t` is one
iteration of its `for` loop.  `lexNewParagraph` / `lexParagraphContinued`
are the two instantiations of `t`. -/
inductive PState where
  | block
  | paragraph (t : ItemTypeP)
  | paraLoop (t : ItemTypeP)
  | atxHeader
  | ul
  | setText
deriving DecidableEq, Repr

/-- `errorf` message of `lexAtxHeader` for a zero-length run. -/
def errNoHash : List Char := ("Expected \"#\" at start of ATX header").data

/-- `errorf` message of `lexAtxHeader` for a missing line ending. -/
def errNoNL : List Char := ("Expected newline at end of ATX header").data

/-- One iteration of the `lexBlock` `for` loop (part_000 lines 602–626).
Note the loop's exit test `l.pos > len(l.input)`: when no branch matches
and the test is false the loop repeats with the cursor unchanged. -/
def stepBlock (l : Lexer) : Lexer × List ItemP × StepNext PState :=
  let s := l.input.drop l.pos
  if hpL s hardBrD then
    let l1 := nextNTimesL 4 l
    let p := emitP l1 .itemHardNewLine
    (p.2, [p.1], .go .block)
  else if hpL s ['-'] || hpL s ['+'] || hpL s ['*'] then
    (l, [], .go .ul)
  else
    let pk := peekL l
    if isAlphaNumericOpt pk.1 then
      (pk.2, [], .go (.paragraph .itemParagraph))
    else if hpL s ['#'] then
      (pk.2, [], .go .atxHeader)
    else if l.input.length < pk.2.pos then
      if pk.2.start < pk.2.pos then
        let p1 := emitP pk.2 .itemParagraph
        let p2 := emitP p1.2 .itemEOF
        (p2.2, [p1.1, p2.1], .halt)
      else
        let p2 := emitP pk.2 .itemEOF
        (p2.2, [p2.1], .halt)
    else
      (pk.2, [], .go .block)

/-- Entry of `lexParagraph` (lines 640–643): an immediate `=`/`-`
delegates to `lexSetTextHeader`, otherwise the loop runs. -/
def stepParagraph (t : ItemTypeP) (l : Lexer) : Lexer × List ItemP × StepNext PState :=
  let a1 := acceptL ['='] l
  if a1.1 then (a1.2, [], .go .setText)
  else
    let a2 := acceptL ['-'] a1.2
    if a2.1 then (a2.2, [], .go .setText)
    else (a2.2, [], .go (.paraLoop t))

/-- One iteration of the `lexParagraph` `for` loop (lines 644–682).  The
hard-break test slices `l.input[l.pos-2:]`: a Go panic when `pos < 2`. -/
def stepParaLoop (t : ItemTypeP) (l : Lexer) : Lexer × List ItemP × StepNext PState :=
  let ar := acceptRunL inlineChars l
  let l1 := ar.2
  if ar.1 = 0 then
    if l1.pos < 2 then
      (l1, [], .crash)
    else if hpL (l1.input.drop (l1.pos - 2)) hardBrD then
      let p1 := emitP l1 t
      let l3 := nextNTimesL 2 p1.2
      let p2 := emitP l3 .itemHardNewLine
      let l5 := (acceptRunL [' '] p2.2).2
      let l6 := ignoreL l5
      let a1 := acceptL ['='] l6
      if a1.1 then (backupL a1.2, [p1.1, p2.1], .go .setText)
      else
        let a2 := acceptL ['-'] a1.2
        if a2.1 then (backupL a2.2, [p1.1, p2.1], .go .setText)
        else
          let a3 := acceptL brD a2.2
          if a3.1 then (a3.2, [p1.1, p2.1], .go .block)
          else
            let pk := peekL a3.2
            if isAlphaNumericOpt pk.1 then
              (pk.2, [p1.1, p2.1], .go (.paragraph .itemParagraphContinued))
            else
              (pk.2, [p1.1, p2.1], .go (.paraLoop t))
    else if hpL (l1.input.drop l1.pos) brD then
      let p1 := emitP l1 t
      let l3 := nextNTimesL 2 p1.2
      let p2 := emitP l3 .itemNewLine
      let l5 := (acceptRunL [' '] p2.2).2
      if hpL (l5.input.drop l5.pos) brD then
        let p3 := emitP l5 t
        let l7 := nextNTimesL 2 p3.2
        let l8 := ignoreL l7
        (l8, [p1.1, p2.1, p3.1], .go .block)
      else
        let pk := peekL l5
        if isAlphaNumericOpt pk.1 then
          (pk.2, [p1.1, p2.1], .go (.paraLoop t))
        else
          (pk.2, [p1.1, p2.1], .go .block)
    else
      (l1, [], .go (.paraLoop t))
  else
    (l1, [], .go (.paraLoop t))

/-- The `switch n` of `lexAtxHeader` (lines 697–714), mapping the length
of the `#` run to a token kind; the `default` arm clamps to level 6. -/
def atxTyp (n : Nat) : ItemTypeP :=
  if n = 1 then .itemH1
  else if n = 2 then .itemH2
  else if n = 3 then .itemH3
  else if n = 4 then .itemH4
  else if n = 5 then .itemH5
  else if n = 6 then .itemH6
  else if n = 0 then .itemError
  else .itemH6

/-- `lexAtxHeader` (lines 690–727). -/
def stepAtx (l : Lexer) : Lexer × List ItemP × StepNext PState :=
  let ar := acceptRunL ['#'] l
  let pk := peekL ar.2
  if pk.1 ≠ some ' ' then
    (pk.2, [], .go (.paragraph .itemParagraph))
  else
    let l3 := ignoreNextL 1 pk.2
    let t := atxTyp ar.1
    if t = .itemError then
      (l3, [⟨.itemError, errNoHash⟩], .halt)
    else
      let l4 := ignoreL l3
      let l5 := (acceptRunL inlineChars l4).2
      let p := emitP l5 t
      if hpL (p.2.input.drop p.2.pos) brD then
        (ignoreNextL 2 p.2, [p.1], .go .block)
      else
        (p.2, [p.1, ⟨.itemError, errNoNL⟩], .halt)

/-- `lexUl` (lines 729–741).  `emit(itemUl)` fires with `start` still at
the list marker, so the marker and separating space stay in the value. -/
def stepUl (l : Lexer) : Lexer × List ItemP × StepNext PState :=
  let l1 := (nextL l).2
  let pk := peekL l1
  if pk.1 ≠ some ' ' then
    (pk.2, [], .go (.paragraph .itemParagraph))
  else
    let l3 := scanToBrL pk.2
    let p := emitP l3 .itemUl
    let l5 := nextNTimesL 2 p.2
    let l6 := ignoreL l5
    (l6, [p.1], .go .block)

/-- The state dispatcher of the `P` revision; `lexSetTextHeader` (lines
685–688) prints and returns `nil`, ending the scan with no token. -/
def stepP (l : Lexer) : PState → Lexer × List ItemP × StepNext PState
  | .block => stepBlock l
  | .paragraph t => stepParagraph t l
  | .paraLoop t => stepParaLoop t l
  | .atxHeader => stepAtx l
  | .ul => stepUl l
  | .setText => (l, [], .halt)

/-- `run()` of the `P` revision, fueled. -/
def runP (fuel : Nat) (l : Lexer) (s : PState) : List ItemP × RunOut PState :=
  runGen stepP fuel l s

/-- A run that has reached a spinning configuration after `N` steps has
emitted its final token list: more fuel adds nothing, and any fuel yields
a prefix of that list. -/
theorem runGen_stabilize {σ τ : Type} (step : Lexer → σ → Lexer × List τ × StepNext σ)
    (N : Nat) (l0 lF : Lexer) (s0 sF : σ) (toks : List τ)
    (hbase : runGen step N l0 s0 = (toks, .more lF sF))
    (hfix : step lF sF = (lF, [], .go sF)) :
    (∀ f, runGen step (N + f) l0 s0 = (toks, .more lF sF)) ∧
      (∀ f, (runGen step f l0 s0).1 <+: toks) := by
  have h1 : ∀ f, runGen step (N + f) l0 s0 = (toks, .more lF sF) := by
    intro f
    rw [runGen_add, hbase]
    simp [runGen_fix step lF sF hfix f]
  refine ⟨h1, fun f => ?_⟩
  have h2 := runGen_mono step f N l0 s0
  have h3 : f + N = N + f := Nat.add_comm f N
  rw [h3, h1 f] at h2
  exact h2

/-- Tokens of the scan of `"# a"`, used in the reconstruction
counterexample below. -/
def reconstructP (toks : List ItemP) : List Char :=
  ((toks.filter fun t =>
      decide (t.typ ≠ .itemNewLine ∧ t.typ ≠ .itemHardNewLine ∧ t.typ ≠ .itemEOF)).map
    ItemP.val).flatten

/-! ## Claims about the `P` scanner on concrete inputs -/

/-- C1.  The token stream is NOT always finite-and-terminated: on the
empty input `lexBlock` spins forever (its exit test `l.pos > len(l.input)`
can never become true, since the cursor never moves past the end), so no
token — in particular no terminal token — is ever produced; and on the
input `"-="` the scan reaches `lexSetTextHeader`, which returns `nil`
without emitting anything, closing the stream with zero tokens and hence
without any terminal token. -/
theorem C1_no_terminal_token :
    (∀ f, runP f (initL []) .block = ([], .more (initL []) .block)) ∧
      runP 4 (initL (("-=").data)) .block = ([], .halted) := by
  constructor
  · exact runGen_fix stepP (initL []) .block (by decide)
  · decide

/-- C10.  The hard-break test of `lexParagraph` slices `l.input[l.pos-2:]`
with no lower-bound guard.  On input `"a\r\n"` the first paragraph line
has a single character, the check runs with `pos = 1`, the slice index is
negative and the scan panics (crashes) having emitted no token — at any
fuel beyond the four steps it takes to get there. -/
theorem C10_paragraph_hard_break_panic :
    ∀ f, runP (4 + f) (initL (("a\r\n").data)) .block = ([], .crashed) := by
  intro f
  exact runGen_stable stepP 4 f _ _ _ _ (by decide) (by simp)

/-- C2 counterexample.  On input `"# a"` the scan terminates (via the
missing-newline `errorf` of `lexAtxHeader`) with tokens `[H1 "a", error]`;
concatenating the values of all tokens other than line-break and
end-of-stream tokens yields `"a" ++ message`, not the source `"# a"`: the
`#` run and the separating space were discarded by `ignore`, and the
error value is a diagnostic message, so tokenization is not lossless. -/
theorem C2_reconstruction_fails :
    runP 2 (initL (("# a").data)) .block =
        ([⟨.itemH1, ("a").data⟩, ⟨.itemError, errNoNL⟩], .halted) ∧
      reconstructP (runP 2 (initL (("# a").data)) .block).1 ≠ ("# a").data := by
  constructor
  · decide
  · decide

/-- C3 counterexample.  `"####### T\r\n"` has a run of seven `#` followed
by a space; the `switch` default clamps it to level 6, so the scanner
emits the heading token `H6 "T"` — not an error — and carries on. -/
theorem C3_seven_hashes_yield_h6 :
    (runP 3 (initL (("####### T\r\n").data)) .block).1 = [⟨.itemH6, ("T").data⟩] := by
  decide

/-- C5 counterexample.  On `"- item\r\n"` the single unordered-list token
carries the value `"- item"`: `lexUl` never resets `start` past the
marker, so the marker and the separating space are part of the value and
no token with value `"item"` appears in the stabilised stream. -/
theorem C5_ul_value_keeps_marker :
    (runP 3 (initL (("- item\r\n").data)) .block).1 = [⟨.itemUl, ("- item").data⟩] := by
  decide

/-- C5 amended.  On `"- item\r\n"` the scanner emits exactly one token,
an unordered-list item with value `"- item"` (marker and space included);
afterwards it spins in `lexBlock` at end of input, so no further token —
and no end-of-stream token — ever follows. -/
theorem C5_ul_stream :
    (∀ f, runP (3 + f) (initL (("- item\r\n").data)) .block =
        ([⟨.itemUl, ("- item").data⟩], .more ⟨("- item\r\n").data, 8, 8, 0⟩ .block)) ∧
      (∀ f, (runP f (initL (("- item\r\n").data)) .block).1 <+:
        [⟨.itemUl, ("- item").data⟩]) :=
  runGen_stabilize stepP 3 _ _ _ _ _ (by decide) (by decide)

/-- C6 counterexample.  On `"line one  \r\nline two\r\n"` the first
emitted token is a paragraph token with value `"line one  "` — the two
hard-break spaces are accepted by `acceptRun(inlineChars)` (whose set
contains the space) before the emit, so they are NOT excluded — and no
token of the run carries the value `"line one"`. -/
theorem C6_hard_break_spaces_kept :
    (runP 8 (initL (("line one  \r\nline two\r\n").data)) .block).1 =
      [⟨.itemParagraph, ("line one  ").data⟩,
       ⟨.itemHardNewLine, ("\r\n").data⟩,
       ⟨.itemParagraphContinued, ("line two").data⟩,
       ⟨.itemNewLine, ("\r\n").data⟩] := by
  decide

/-- C6 amended.  The stabilised stream of
`"line one  \r\nline two\r\n"` is: paragraph `"line one  "` (trailing
hard-break spaces included), hard line break `"\r\n"`, continuation
`"line two"`, soft line break `"\r\n"`; the scanner then spins in
`lexBlock` at end of input without emitting an end-of-stream token. -/
theorem C6_hard_break_stream :
    (∀ f, runP (8 + f) (initL (("line one  \r\nline two\r\n").data)) .block =
        ([⟨.itemParagraph, ("line one  ").data⟩,
          ⟨.itemHardNewLine, ("\r\n").data⟩,
          ⟨.itemParagraphContinued, ("line two").data⟩,
          ⟨.itemNewLine, ("\r\n").data⟩],
         .more ⟨("line one  \r\nline two\r\n").data, 22, 22, 0⟩ .block)) ∧
      (∀ f, (runP f (initL (("line one  \r\nline two\r\n").data)) .block).1 <+:
        [⟨.itemParagraph, ("line one  ").data⟩,
         ⟨.itemHardNewLine, ("\r\n").data⟩,
         ⟨.itemParagraphContinued, ("line two").data⟩,
         ⟨.itemNewLine, ("\r\n").data⟩]) :=
  runGen_stabilize stepP 8 _ _ _ _ _ (by decide) (by decide)

/-- C7.  On `"# Title\r\n"` the scanner emits exactly one token: a
level-1 heading with value `"Title"` — the `#` run and exactly one
separating space are dropped by `ignoreNext(1)` and `ignore` and do not
reach the value — and after the emit the line ending is consumed
(`ignoreNext(len(br))`), leaving the cursor at position 9, the input
length.  Any fuel yields a prefix of that one-token stream, so no second
heading token ever appears. -/
theorem C7_atx_h1_title :
    (∀ f, runP (3 + f) (initL (("# Title\r\n").data)) .block =
        ([⟨.itemH1, ("Title").data⟩],
         .more ⟨("# Title\r\n").data, 9, 9, 0⟩ .block)) ∧
      (∀ f, (runP f (initL (("# Title\r\n").data)) .block).1 <+:
        [⟨.itemH1, ("Title").data⟩]) :=
  runGen_stabilize stepP 3 _ _ _ _ _ (by decide) (by decide)

/-- C3 amended.  What `lexAtxHeader` actually does with abnormal run
lengths: a run of zero `#` is mapped to the error kind by the `switch`
(and `errorf` then ends the scan — though `lexBlock` only ever enters the
state on a `#` prefix, so the run is never zero there), while every run
of more than six `#` followed by a space is clamped by the `default` arm
to a level-6 heading; concretely, `"####### T\r\n"` stabilises to the
single heading token `H6 "T"` and no error token is ever emitted. -/
theorem C3_atx_clamp (n : Nat) (h : 7 ≤ n) :
    atxTyp n = .itemH6 ∧ atxTyp 0 = .itemError ∧
      (∀ f, runP (3 + f) (initL (("####### T\r\n").data)) .block =
        ([⟨.itemH6, ("T").data⟩],
         .more ⟨("####### T\r\n").data, 11, 11, 0⟩ .block)) ∧
      (∀ f, (runP f (initL (("####### T\r\n").data)) .block).1 <+:
        [⟨.itemH6, ("T").data⟩]) := by
  refine ⟨?_, by decide, runGen_stabilize stepP 3 _ _ _ _ _ (by decide) (by decide)⟩
  unfold atxTyp
  rw [if_neg (by omega), if_neg (by omega), if_neg (by omega), if_neg (by omega),
    if_neg (by omega), if_neg (by omega), if_neg (by omega)]

/-- Witness for `C3_atx_clamp` at the concrete run length 7. -/
theorem C3_atx_clamp_witness :
    atxTyp 7 = .itemH6 ∧ atxTyp 0 = .itemError ∧
      (∀ f, runP (3 + f) (initL (("####### T\r\n").data)) .block =
        ([⟨.itemH6, ("T").data⟩],
         .more ⟨("####### T\r\n").data, 11, 11, 0⟩ .block)) ∧
      (∀ f, (runP f (initL (("####### T\r\n").data)) .block).1 <+:
        [⟨.itemH6, ("T").data⟩]) :=
  C3_atx_clamp 7 (by decide)

/-! ## The public entry point `Lex` (`src/parser/parser.go`)

`Lex` allocates `res := make([]item, 200)` and stores each drained token
by `res[i] = elem; i++`.  The slice is a length-200 list of zero-valued
items; the store panics when `i` reaches 200. -/

/-- The Go zero value of `item`: kind 0 (`itemParagraph`) and `""`. -/
def zeroItemP : ItemP := ⟨.itemParagraph, []⟩

/-- The drain loop of `Lex`: sequential index assignment into the fixed
slice; `none` models the out-of-range panic of `res[i] = elem`. -/
def drainGo : List ItemP → Nat → List ItemP → Option (List ItemP)
  | [], _, res => some res
  | t :: ts, i, res =>
    if i < res.length then drainGo ts (i + 1) (res.set i t) else none

/-- Observable result of `parser.Lex`: the returned slice, the index
panic, a panic inside the scanning goroutine, or still waiting on the
channel (scanner neither done nor panicked within the fuel). -/
inductive LexOutcome where
  | returned (res : List ItemP)
  | panicOOB
  | panicLexer
  | pending
deriving DecidableEq, Repr

/-- `parser.Lex`, modelled over the fueled scan: drain whatever the
scanner emits; report the index panic as soon as a 201st token arrives. -/
def LexGo (fuel : Nat) (input : List Char) : LexOutcome :=
  let r := runP fuel (initL input) .block
  match drainGo r.1 0 (List.replicate 200 zeroItemP) with
  | none => .panicOOB
  | some res =>
    match r.2 with
    | .halted => .returned res
    | .crashed => .panicLexer
    | .more _ _ => .pending

/-- Successful drain: tokens land in the leading positions, the
zero-valued tail survives, the length is unchanged. -/
theorem drainGo_ok (toks : List ItemP) : ∀ (pre : List ItemP),
    pre.length + toks.length ≤ 200 →
    drainGo toks pre.length (pre ++ List.replicate (200 - pre.length) zeroItemP) =
      some (pre ++ toks ++ List.replicate (200 - pre.length - toks.length) zeroItemP) := by
  induction toks with
  | nil => intro pre h; simp [drainGo]
  | cons t ts ih =>
    intro pre h
    have hlen : pre.length < 200 := by
      have := List.length_cons t ts ▸ h
      omega
    have hrep : 200 - pre.length = (200 - (pre.length + 1)) + 1 := by omega
    have hset : (pre ++ List.replicate (200 - pre.length) zeroItemP).set pre.length t =
        (pre ++ [t]) ++ List.replicate (200 - (pre.length + 1)) zeroItemP := by
      rw [List.set_append_right _ _ (le_refl pre.length), Nat.sub_self, hrep,
        List.replicate_succ, List.set_cons_zero, List.append_assoc]
      simp
    have hl : (pre ++ List.replicate (200 - pre.length) zeroItemP).length = 200 := by
      simp
      omega
    have step : drainGo (t :: ts) pre.length
        (pre ++ List.replicate (200 - pre.length) zeroItemP) =
        drainGo ts (pre.length + 1) ((pre ++ [t]) ++
          List.replicate (200 - (pre.length + 1)) zeroItemP) := by
      rw [drainGo, if_pos (by rw [hl]; exact hlen), hset]
    rw [step]
    have h2 : (pre ++ [t]).length + ts.length ≤ 200 := by
      simp
      simp at h
      omega
    have := ih (pre ++ [t]) h2
    rw [List.length_append, List.length_singleton] at this
    rw [this]
    simp [List.append_assoc]
    omega

/-- Failing drain: as soon as the token count overruns the slice, the
sequential store reaches an out-of-range index. -/
theorem drainGo_overflow (toks : List ItemP) : ∀ (i : Nat) (res : List ItemP),
    toks ≠ [] → res.length < i + toks.length → drainGo toks i res = none := by
  induction toks with
  | nil => intro i res hne _; exact absurd rfl hne
  | cons t ts ih =>
    intro i res _ hlen
    rw [drainGo]
    by_cases hi : i < res.length
    · rw [if_pos hi]
      have hts : ts ≠ [] := by
        intro he
        rw [he] at hlen
        simp at hlen
        omega
      exact ih (i + 1) (res.set i t) hts (by simp; simp [List.length_cons] at hlen; omega)
    · rw [if_neg hi]

theorem drop_lt_of_cons {xs : List Char} {n : Nat} {c : Char} {rest : List Char}
    (h : xs.drop n = c :: rest) : n < xs.length := by
  have := congrArg List.length h
  simp at this
  omega

theorem drop_succ_of_cons {xs : List Char} {n : Nat} {c : Char} {rest : List Char}
    (h : xs.drop n = c :: rest) : xs.drop (n + 1) = rest := by
  have ht : (xs.drop n).tail = rest := by rw [h]; rfl
  rw [List.tail_drop] at ht
  exact ht

theorem nextL_of_cons {l : Lexer} {c : Char} {rest : List Char}
    (h : l.input.drop l.pos = c :: rest) :
    nextL l = (some c, { l with pos := l.pos + 1, width := 1 }) := by
  have hpos : l.pos < l.input.length := drop_lt_of_cons h
  have hget : l.input.drop l.pos = l.input[l.pos] :: l.input.drop (l.pos + 1) :=
    List.drop_eq_getElem_cons hpos
  rw [h] at hget
  rw [nextL, dif_pos hpos]
  simp only [List.get_eq_getElem]
  injection hget with h1 _
  rw [← h1]

theorem nextL_of_nil {l : Lexer} (h : l.input.length ≤ l.pos) :
    nextL l = (none, { l with width := 0 }) := by
  rw [nextL, dif_neg (by omega)]

theorem nextNTimesL_adds (n : Nat) : ∀ (l : Lexer), 1 ≤ n → n ≤ l.input.length - l.pos →
    nextNTimesL n l = { l with pos := l.pos + n, width := 1 } := by
  induction n with
  | zero => intro l h1 _; omega
  | succ n ih =>
    intro l _ hle
    have hpos : l.pos < l.input.length := by omega
    have hnext : (nextL l).2 = { l with pos := l.pos + 1, width := 1 } := by
      rw [nextL, dif_pos hpos]
    rcases Nat.eq_zero_or_pos n with hz | hp
    · subst hz
      rw [nextNTimesL, nextNTimesL, hnext]
    · rw [nextNTimesL, hnext, ih _ hp (by simp; omega)]
      have : l.pos + 1 + n = l.pos + (n + 1) := by omega
      simp [this]

def repList : Nat → List Char → List Char
  | 0, _ => []
  | n + 1, s => s ++ repList n s

theorem hardBr_run (k : Nat) : ∀ (l : Lexer), l.start = l.pos →
    l.input.drop l.pos = repList k hardBrD →
    (runP k l .block).1 = List.replicate k ⟨.itemHardNewLine, hardBrD⟩ := by
  induction k with
  | zero => intro l _ _; rfl
  | succ k ih =>
    intro l hs hdrop
    have hd : l.input.drop l.pos = ' ' :: ' ' :: '\r' :: '\n' :: repList k hardBrD := by
      simpa [repList, hardBrD] using hdrop
    have hfuel4 : 4 ≤ l.input.length - l.pos := by
      have := congrArg List.length hd
      simp at this
      omega
    have h4 := nextNTimesL_adds 4 l (by omega) hfuel4
    have hpre : hpL (l.input.drop l.pos) hardBrD = true := by
      rw [hd]
      simp [hpL, hardBrD, List.isPrefixOf]
    have hstep : stepP l .block =
        ({ input := l.input, start := l.pos + 4, pos := l.pos + 4, width := 1 },
          [⟨.itemHardNewLine, hardBrD⟩], .go .block) := by
      simp only [stepP, stepBlock, hpre, if_true, h4, emitP, emitSpan, extractL, hs]
      have harith : l.pos + 4 - l.pos = 4 := by omega
      rw [harith, hd]
      simp [List.take, hardBrD]
    show (runGen stepP (k + 1) l .block).1 = _
    rw [runGen, hstep]
    have hrec := ih { input := l.input, start := l.pos + 4, pos := l.pos + 4, width := 1 }
      rfl (by
        have : l.input.drop (l.pos + 4) = repList k hardBrD := by
          have h1 := drop_succ_of_cons hd
          have h2 := drop_succ_of_cons h1
          have h3 := drop_succ_of_cons h2
          have h4' := drop_succ_of_cons h3
          have : l.pos + 1 + 1 + 1 + 1 = l.pos + 4 := by omega
          rw [this] at h4'
          exact h4'
        simpa using this)
    simp only [runP] at hrec
    simp [hrec, List.replicate_succ]

/-- C9.  `Lex` stores drained tokens into `make([]item, 200)` by
sequential index assignment.  Whenever the scan closes its stream with at
most 200 tokens, the returned slice has length exactly 200, the tokens in
the leading positions and zero-valued items (`item{}` = kind 0, empty
value) after them; and on an input of 201 hard-break markers the 201st
store `res[200]` is out of bounds and panics. -/
theorem C9_lex_slice :
    (∀ (input : List Char) (fuel : Nat) (toks : List ItemP),
        runP fuel (initL input) .block = (toks, .halted) →
        toks.length ≤ 200 →
        LexGo fuel input =
            .returned (toks ++ List.replicate (200 - toks.length) zeroItemP) ∧
          (toks ++ List.replicate (200 - toks.length) zeroItemP).length = 200) ∧
      LexGo 201 (repList 201 hardBrD) = .panicOOB := by
  constructor
  · intro input fuel toks hrun hlen
    have hdrain := drainGo_ok toks [] (by simpa using hlen)
    simp only [List.length_nil, List.nil_append, Nat.sub_zero] at hdrain
    constructor
    · rw [LexGo]
      simp only [hrun, hdrain]
    · simp
      omega
  · have htoks := hardBr_run 201 (initL (repList 201 hardBrD)) rfl (by simp [initL])
    rw [LexGo]
    rcases hr : runP 201 (initL (repList 201 hardBrD)) .block with ⟨toks, oc⟩
    rw [hr] at htoks
    simp only at htoks
    subst htoks
    have hnone := drainGo_overflow (List.replicate 201 ⟨.itemHardNewLine, hardBrD⟩) 0
      (List.replicate 200 zeroItemP)
      (by
        intro h
        have := congrArg List.length h
        rw [List.length_replicate] at this
        simp at this)
      (by rw [List.length_replicate, List.length_replicate]; omega)
    simp only [hnone]

/-- Witness for `C9_lex_slice` at the terminating input `"-="` (zero
tokens drained, all 200 slots zero-valued). -/
theorem C9_lex_slice_witness :
    LexGo 4 (("-=").data) =
        .returned (([] : List ItemP) ++
          List.replicate (200 - ([] : List ItemP).length) zeroItemP) ∧
      (([] : List ItemP) ++
        List.replicate (200 - ([] : List ItemP).length) zeroItemP).length = 200 :=
  C9_lex_slice.1 (("-=").data) 4 [] (by decide) (by decide)

/-! ## Cursor invariants (claim C8)

The cursor primitives never touch `input`, and none of them can move
`pos` past the end of the buffer. -/

@[simp] theorem input_nextL (l : Lexer) : ((nextL l).2).input = l.input := by
  rw [nextL]; split <;> rfl

@[simp] theorem input_backupL (l : Lexer) : (backupL l).input = l.input := rfl

@[simp] theorem input_backupNSpacesL (n : Nat) (l : Lexer) :
    (backupNSpacesL n l).input = l.input := rfl

@[simp] theorem input_peekL (l : Lexer) : ((peekL l).2).input = l.input := by
  rw [peekL]; simp

@[simp] theorem input_ignoreL (l : Lexer) : (ignoreL l).input = l.input := rfl

@[simp] theorem input_emitSpan (l : Lexer) : ((emitSpan l).2).input = l.input := rfl

@[simp] theorem input_nextNTimesL (n : Nat) : ∀ l : Lexer,
    (nextNTimesL n l).input = l.input := by
  induction n with
  | zero => intro l; rfl
  | succ n ih => intro l; rw [nextNTimesL, ih]; simp

@[simp] theorem input_ignoreNextL (n : Nat) (l : Lexer) :
    (ignoreNextL n l).input = l.input := by
  rw [ignoreNextL]; simp

@[simp] theorem input_acceptL (v : List Char) (l : Lexer) :
    ((acceptL v l).2).input = l.input := by
  rw [acceptL]
  rcases h : nextL l with ⟨r, l'⟩
  have : l'.input = l.input := by
    have h2 : (nextL l).2 = l' := by rw [h]
    rw [← h2]; simp
  cases r with
  | some c =>
    simp only []
    split <;> simp [backupL, this]
  | none => simp [backupL, this]

@[simp] theorem input_acceptRunF (v : List Char) (fuel : Nat) : ∀ l : Lexer,
    ((acceptRunF v fuel l).2).input = l.input := by
  induction fuel with
  | zero => intro l; rw [acceptRunF]; simp
  | succ fuel ih =>
    intro l
    rw [acceptRunF]
    rcases h : nextL l with ⟨r, l'⟩
    have hinp : l'.input = l.input := by
      have h2 : (nextL l).2 = l' := by rw [h]
      rw [← h2]; simp
    cases r with
    | some c =>
      simp only []
      split
      · rw [ih l', hinp]
      · simp [backupL, hinp]
    | none => simp [backupL, hinp]

@[simp] theorem input_acceptRunL (v : List Char) (l : Lexer) :
    ((acceptRunL v l).2).input = l.input := by
  rw [acceptRunL]; simp

@[simp] theorem input_ignoreRunL (c : Char) (l : Lexer) :
    (ignoreRunL c l).input = l.input := by
  rw [ignoreRunL]; simp

@[simp] theorem input_scanToBrF (fuel : Nat) : ∀ l : Lexer,
    (scanToBrF fuel l).input = l.input := by
  induction fuel with
  | zero => intro l; rfl
  | succ fuel ih =>
    intro l
    rw [scanToBrF]
    split
    · rfl
    · rcases h : peekL l with ⟨r, l'⟩
      have hinp : l'.input = l.input := by
        have h2 : (peekL l).2 = l' := by rw [h]
        rw [← h2]; simp
      cases r with
      | none => simpa using hinp
      | some c => simp only []; rw [ih, input_nextL, hinp]

@[simp] theorem input_scanToBrL (l : Lexer) : (scanToBrL l).input = l.input := by
  rw [scanToBrL]; simp

theorem pos_le_nextL {l : Lexer} (h : l.pos ≤ l.input.length) :
    ((nextL l).2).pos ≤ l.input.length := by
  rw [nextL]
  split
  · simpa using by omega
  · simpa using h

theorem pos_le_backupL (l : Lexer) (h : l.pos ≤ l.input.length) :
    (backupL l).pos ≤ l.input.length := by
  rw [backupL]; simp; omega

theorem pos_le_backupNSpacesL {l : Lexer} (n : Nat) (h : l.pos ≤ l.input.length) :
    (backupNSpacesL n l).pos ≤ l.input.length := by
  rw [backupNSpacesL]; simp; omega

theorem pos_le_peekL {l : Lexer} (h : l.pos ≤ l.input.length) :
    ((peekL l).2).pos ≤ l.input.length := by
  rw [peekL]
  simp only []
  have h1 := pos_le_nextL h
  have h2 : ((nextL l).2).input = l.input := by simp
  have := pos_le_backupL ((nextL l).2) (by rw [h2]; exact h1)
  rw [h2] at this
  exact this

theorem pos_le_nextNTimesL (n : Nat) : ∀ (l : Lexer), l.pos ≤ l.input.length →
    (nextNTimesL n l).pos ≤ l.input.length := by
  induction n with
  | zero => intro l h; exact h
  | succ n ih =>
    intro l h
    rw [nextNTimesL]
    have h1 := pos_le_nextL h
    have h2 : ((nextL l).2).input = l.input := by simp
    have := ih ((nextL l).2) (by rw [h2]; exact h1)
    rw [h2] at this
    exact this

theorem pos_le_acceptL {l : Lexer} (v : List Char) (h : l.pos ≤ l.input.length) :
    ((acceptL v l).2).pos ≤ l.input.length := by
  rw [acceptL]
  rcases hn : nextL l with ⟨r, l'⟩
  have hl' : (nextL l).2 = l' := by rw [hn]
  have hinp : l'.input = l.input := by rw [← hl']; simp
  have hp : l'.pos ≤ l.input.length := by rw [← hl']; exact pos_le_nextL h
  have hb : (backupL l').pos ≤ l.input.length := by
    have := pos_le_backupL l' (by rw [hinp]; exact hp)
    rw [hinp] at this
    exact this
  cases r with
  | some c => simp only []; split <;> simp [hp, hb]
  | none => simpa using hb

theorem pos_le_acceptRunF (v : List Char) (fuel : Nat) : ∀ (l : Lexer),
    l.pos ≤ l.input.length → ((acceptRunF v fuel l).2).pos ≤ l.input.length := by
  induction fuel with
  | zero =>
    intro l h
    rw [acceptRunF]
    have h1 := pos_le_nextL h
    have h2 : ((nextL l).2).input = l.input := by simp
    have := pos_le_backupL ((nextL l).2) (by rw [h2]; exact h1)
    rw [h2] at this
    simpa using this
  | succ fuel ih =>
    intro l h
    rw [acceptRunF]
    rcases hn : nextL l with ⟨r, l'⟩
    have hl' : (nextL l).2 = l' := by rw [hn]
    have hinp : l'.input = l.input := by rw [← hl']; simp
    have hp : l'.pos ≤ l.input.length := by rw [← hl']; exact pos_le_nextL h
    have hb : (backupL l').pos ≤ l.input.length := by
      have := pos_le_backupL l' (by rw [hinp]; exact hp)
      rw [hinp] at this
      exact this
    cases r with
    | some c =>
      simp only []
      split
      · have := ih l' (by rw [hinp]; exact hp)
        rw [hinp] at this
        simpa using this
      · simpa using hb
    | none => simpa using hb

theorem pos_le_acceptRunL {l : Lexer} (v : List Char) (h : l.pos ≤ l.input.length) :
    ((acceptRunL v l).2).pos ≤ l.input.length := by
  rw [acceptRunL]; exact pos_le_acceptRunF v _ l h

/-- The cursor operations of the scanner, as an operation alphabet. -/
inductive COp where
  | next
  | backup
  | backupNSpaces (n : Nat)
  | peek
  | ignore
  | emit
  | accept (valid : List Char)
  | acceptRun (valid : List Char)
  | nextNTimes (n : Nat)
  | ignoreNext (n : Nat)
  | ignoreRun (c : Char)
deriving Repr

/-- State effect of one cursor operation (return values dropped). -/
def applyCOp (l : Lexer) : COp → Lexer
  | .next => (nextL l).2
  | .backup => backupL l
  | .backupNSpaces n => backupNSpacesL n l
  | .peek => (peekL l).2
  | .ignore => ignoreL l
  | .emit => (emitSpan l).2
  | .accept v => (acceptL v l).2
  | .acceptRun v => (acceptRunL v l).2
  | .nextNTimes n => nextNTimesL n l
  | .ignoreNext n => ignoreNextL n l
  | .ignoreRun c => ignoreRunL c l

/-- A sequence of cursor operations applied from the left. -/
def applyCOps (l : Lexer) : List COp → Lexer
  | [] => l
  | op :: ops => applyCOps (applyCOp l op) ops

theorem input_applyCOp (l : Lexer) (op : COp) : (applyCOp l op).input = l.input := by
  cases op <;> simp [applyCOp, ignoreNextL, ignoreRunL]

theorem pos_le_applyCOp {l : Lexer} (op : COp) (h : l.pos ≤ l.input.length) :
    (applyCOp l op).pos ≤ l.input.length := by
  cases op with
  | next => exact pos_le_nextL h
  | backup => exact pos_le_backupL l h
  | backupNSpaces n => exact pos_le_backupNSpacesL n h
  | peek => exact pos_le_peekL h
  | ignore => exact h
  | emit => exact h
  | accept v => exact pos_le_acceptL v h
  | acceptRun v => exact pos_le_acceptRunL v h
  | nextNTimes n => exact pos_le_nextNTimesL n l h
  | ignoreNext n =>
    show (ignoreL (nextNTimesL n l)).pos ≤ l.input.length
    exact pos_le_nextNTimesL n l h
  | ignoreRun c =>
    show (ignoreL ((acceptRunL [c] l).2)).pos ≤ l.input.length
    exact pos_le_acceptRunL [c] h

/-- C8.  The `next` primitive at an exhausted buffer returns the
end-of-input sentinel with `pos` untouched; and starting from the initial
cursor of any input, no sequence of cursor operations can push `pos`
beyond the buffer length. -/
theorem C8_cursor_bound :
    (∀ l : Lexer, l.input.length ≤ l.pos →
        (nextL l).1 = none ∧ ((nextL l).2).pos = l.pos) ∧
      (∀ (s : List Char) (ops : List COp), (applyCOps (initL s) ops).pos ≤ s.length) := by
  constructor
  · intro l h
    rw [nextL, dif_neg (by omega)]
    exact ⟨rfl, rfl⟩
  · intro s ops
    have key : ∀ (ops : List COp) (l : Lexer), l.pos ≤ l.input.length →
        (applyCOps l ops).pos ≤ (applyCOps l ops).input.length := by
      intro ops
      induction ops with
      | nil => intro l h; exact h
      | cons op ops ih =>
        intro l h
        rw [applyCOps]
        exact ih _ (by rw [input_applyCOp]; exact pos_le_applyCOp op h)
    have hinit : (initL s).pos ≤ (initL s).input.length := by simp [initL]
    have hinp : ∀ (ops : List COp) (l : Lexer), (applyCOps l ops).input = l.input := by
      intro ops
      induction ops with
      | nil => intro l; rfl
      | cons op ops ih => intro l; rw [applyCOps, ih, input_applyCOp]
    have := key ops (initL s) hinit
    rw [hinp] at this
    exact this

/-- Witness for `C8_cursor_bound`: the exhausted-cursor clause at a
concrete cursor past the end of `"ab"`, and the bound after a concrete
operation sequence. -/
theorem C8_cursor_bound_witness :
    ((nextL ⟨("ab").data, 0, 2, 1⟩).1 = none ∧
        ((nextL ⟨("ab").data, 0, 2, 1⟩).2).pos = (⟨("ab").data, 0, 2, 1⟩ : Lexer).pos) ∧
      (applyCOps (initL (("ab").data))
        [.next, .peek, .backup, .acceptRun (("ab").data), .next, .next]).pos ≤
        (("ab").data).length :=
  ⟨C8_cursor_bound.1 ⟨("ab").data, 0, 2, 1⟩ (by decide),
   C8_cursor_bound.2 (("ab").data)
     [.next, .peek, .backup, .acceptRun (("ab").data), .next, .next]⟩
/-! ## The `MD` machine: the parser revision inside `src/markdown.go`

Token kinds (lines 26–43) and states `lexText`, `lexAtxHeader`, `lexHr`,
`lexUl`, `lexOl` with the helper `lexTextNewLine` (which emits the
end-of-stream token and calls `os.Exit(0)` — modelled as halting the
machine). -/

/-- `itemType` of the `markdown.go` revision. -/
inductive ItemTypeM where
  | itemText
  | itemBlockQuote
  | itemUl
  | itemOl
  | itemCode
  | itemHr
  | itemSetTextHeader
  | itemH1
  | itemH2
  | itemH3
  | itemH4
  | itemH5
  | itemH6
  | itemEOF
  | itemNewLine
  | itemHardNewLine
  | itemError
deriving DecidableEq, Repr

/-- A token of the `markdown.go` revision. -/
structure ItemM where
  typ : ItemTypeM
  val : List Char
deriving DecidableEq, Repr

/-- `emit` specialised to `MD` tokens. -/
def emitM (l : Lexer) (t : ItemTypeM) : ItemM × Lexer :=
  let p := emitSpan l
  (⟨t, p.1⟩, p.2)

/-- Machine states of the `MD` revision. -/
inductive MState where
  | text
  | atx
  | hr
  | ul
  | ol
deriving DecidableEq, Repr

/-- `lexTextNewLine` (markdown.go lines 281–302).  Returns the cursor,
the emitted tokens, and whether `os.Exit(0)` fired; `none` models the
panic of the slice `l.input[l.pos-2 : l.pos+len(br)]` when `pos < 2`. -/
def lexTextNewLineM (l : Lexer) : Option (Lexer × List ItemM × Bool) :=
  if l.input.length < l.pos + 2 then
    let p := emitM l .itemEOF
    some (p.2, [p.1], true)
  else if l.pos < 2 then none
  else if (l.input.drop (l.pos - 2)).take 4 = hardBrD then
    let l1 := backupNSpacesL 2 l
    if l1.start < l1.pos then
      let p1 := emitM l1 .itemText
      let l2 := nextNTimesL 4 p1.2
      let l3 := ignoreL l2
      let p2 := emitM l3 .itemHardNewLine
      some (p2.2, [p1.1, p2.1], false)
    else
      let l2 := nextNTimesL 4 l1
      let l3 := ignoreL l2
      let p2 := emitM l3 .itemHardNewLine
      some (p2.2, [p2.1], false)
  else
    if l.start < l.pos then
      let p1 := emitM l .itemText
      let l2 := nextNTimesL 2 p1.2
      let l3 := ignoreL l2
      let p2 := emitM l3 .itemNewLine
      some (p2.2, [p1.1, p2.1], false)
    else
      let l2 := nextNTimesL 2 l
      let l3 := ignoreL l2
      let p2 := emitM l3 .itemNewLine
      some (p2.2, [p2.1], false)

/-- The tail of `lexText` (lines 256–275): consume the line, handle its
ending, then re-examine the new line for a setext-header marker line. -/
def textRestM (l : Lexer) : Lexer × List ItemM × StepNext MState :=
  let l1 := scanToBrL l
  match lexTextNewLineM l1 with
  | none => (l1, [], .crash)
  | some (l2, out1, true) => (l2, out1, .halt)
  | some (l2, out1, false) =>
    let l3 := (acceptRunL [' '] l2).2
    let s2 := l3.input.drop l3.pos
    if hpL s2 ['='] || hpL s2 ['-'] then
      let l4 := (acceptRunL ['=', '-', ' '] l3).2
      if !(hpL (l4.input.drop l4.pos) brD) then
        let l5 := scanToBrL l4
        match lexTextNewLineM l5 with
        | none => (l5, out1, .crash)
        | some (l6, out2, true) => (l6, out1 ++ out2, .halt)
        | some (l6, out2, false) => (l6, out1 ++ out2, .go .text)
      else
        let p1 := emitM l4 .itemSetTextHeader
        let l5 := nextNTimesL 2 p1.2
        let l6 := ignoreL l5
        let p2 := emitM l6 .itemNewLine
        (p2.2, out1 ++ [p1.1, p2.1], .go .text)
    else (l3, out1, .go .text)

/-- `lexText` (lines 243–276).  The `+`-marker and ordered-list guards
read `s[1]` / `s[2]` unconditionally after their prefix test, a panic on
short remainders. -/
def stepTextM (l : Lexer) : Lexer × List ItemM × StepNext MState :=
  let s := l.input.drop l.pos
  if hpL s ['#'] then (l, [], .go .atx)
  else if hpL s ['-'] || hpL s ['*'] then (l, [], .go .hr)
  else if hpL s ['+'] then
    match s with
    | _ :: c2 :: _ =>
      if c2 = ' ' then ((acceptRunL [' ', '+'] l).2, [], .go .ul)
      else textRestM l
    | _ => (l, [], .crash)
  else if hpL s ['1', '.'] then
    match s with
    | _ :: _ :: c3 :: _ =>
      if c3 = ' ' then (l, [], .go .ol) else textRestM l
    | _ => (l, [], .crash)
  else textRestM l

/-- The `switch n` of the `markdown.go` `lexAtxHeader` (lines 318–335):
`case 0` is the error, `case 6` falls through to the `default` level 6. -/
def atxTypM (n : Nat) : ItemTypeM :=
  if n = 0 then .itemError
  else if n = 1 then .itemH1
  else if n = 2 then .itemH2
  else if n = 3 then .itemH3
  else if n = 4 then .itemH4
  else if n = 5 then .itemH5
  else .itemH6

/-- `lexAtxHeader` of `markdown.go` (lines 309–342); note the emit after
`ignore()`, so the heading token's value is empty. -/
def stepAtxM (l : Lexer) : Lexer × List ItemM × StepNext MState :=
  let ar := acceptRunL ['#'] l
  let pk := peekL ar.2
  if pk.1 ≠ some ' ' then
    let l1 := scanToBrL pk.2
    match lexTextNewLineM l1 with
    | none => (l1, [], .crash)
    | some (l2, out, true) => (l2, out, .halt)
    | some (l2, out, false) => (l2, out, .go .text)
  else
    let l3 := (acceptRunL [' '] pk.2).2
    let t := atxTypM ar.1
    if t = .itemError then (l3, [⟨.itemError, errNoHash⟩], .halt)
    else
      let l4 := ignoreL l3
      let p := emitM l4 t
      (p.2, [p.1], .go .text)

/-- Loop of `lexHr` (lines 346–352), fueled: accept the rule character,
skip interspersed spaces, until the line ending; bail to `lexUl` (second
component `false`) on any other character. -/
def hrLoopF (c : Char) : Nat → Lexer → Lexer × Bool
  | 0, l => (l, true)
  | fuel + 1, l =>
    if hpL (l.input.drop l.pos) brD then (l, true)
    else
      let a := acceptL [c] l
      if a.1 then hrLoopF c fuel ((acceptRunL [' '] a.2).2)
      else (ignoreL a.2, false)

/-- `hrLoopF` with its sufficient fuel. -/
def hrLoopL (c : Char) (l : Lexer) : Lexer × Bool :=
  hrLoopF c (l.input.length + 1 - l.pos) l

/-- `lexHr` (lines 344–357).  `hrChar := l.input[l.pos:l.pos+1]` panics
on an exhausted buffer (`head?` = `none`). -/
def stepHrM (l : Lexer) : Lexer × List ItemM × StepNext MState :=
  match (l.input.drop l.pos).head? with
  | none => (l, [], .crash)
  | some c =>
    let r := hrLoopL c l
    if r.2 then
      let l1 := nextNTimesL 2 r.1
      let l2 := ignoreL l1
      let p := emitM l2 .itemHr
      (p.2, [p.1], .go .text)
    else (r.1, [], .go .ul)

/-- `lexUl` of `markdown.go` (lines 359–362). -/
def stepUlM (l : Lexer) : Lexer × List ItemM × StepNext MState :=
  let p := emitM l .itemUl
  (p.2, [p.1], .go .text)

/-- The state dispatcher of the `MD` revision; `lexOl` returns `nil`. -/
def stepM (l : Lexer) : MState → Lexer × List ItemM × StepNext MState
  | .text => stepTextM l
  | .atx => stepAtxM l
  | .hr => stepHrM l
  | .ul => stepUlM l
  | .ol => (l, [], .halt)

/-- `run()` of the `MD` revision, fueled. -/
def runM (fuel : Nat) (l : Lexer) (s : MState) : List ItemM × RunOut MState :=
  runGen stepM fuel l s


/-! ## Symbolic facts about the scanning loops (for claim C4) -/

theorem acceptRunF_spec (v : List Char) : ∀ (fuel : Nat) (l : Lexer) (run rest : List Char),
    (∀ x ∈ run, v.contains x = true) →
    (∀ c' rest', rest = c' :: rest' → v.contains c' = false) →
    l.input.drop l.pos = run ++ rest →
    l.input.length - l.pos < fuel →
    acceptRunF v fuel l =
      (run.length, { l with pos := l.pos + run.length,
                            width := if rest.isEmpty then 0 else 1 }) := by
  intro fuel
  induction fuel with
  | zero => intro l run rest _ _ _ hf; omega
  | succ fuel ih =>
    intro l run rest hrun hrest hdrop hf
    cases run with
    | nil =>
      simp only [List.nil_append] at hdrop
      cases rest with
      | nil =>
        have hpos : l.input.length ≤ l.pos := by
          have := congrArg List.length hdrop
          simp at this
          omega
        rw [acceptRunF, nextL_of_nil hpos]
        simp [backupL]
      | cons c' rest' =>
        have hc' : v.contains c' = false := hrest c' rest' rfl
        rw [acceptRunF, nextL_of_cons hdrop]
        simp only [hc', backupL]
        simp
    | cons x run' =>
      have hx : v.contains x = true := hrun x (by simp)
      rw [List.cons_append] at hdrop
      rw [acceptRunF, nextL_of_cons hdrop]
      simp only [hx, if_true]
      have hdrop' : ({ l with pos := l.pos + 1, width := 1 } : Lexer).input.drop
          ({ l with pos := l.pos + 1, width := 1 } : Lexer).pos = run' ++ rest := by
        simpa using drop_succ_of_cons hdrop
      have hpos := drop_lt_of_cons hdrop
      have hf' : ({ l with pos := l.pos + 1, width := 1 } : Lexer).input.length -
          ({ l with pos := l.pos + 1, width := 1 } : Lexer).pos < fuel := by
        simp
        omega
      rw [ih _ run' rest (fun y hy => hrun y (by simp [hy])) hrest hdrop' hf']
      simp
      omega

theorem drop_of_drop_append {xs ys zs : List Char} {n : Nat}
    (h : xs.drop n = ys ++ zs) : xs.drop (n + ys.length) = zs := by
  have h1 : xs.drop (n + ys.length) = (xs.drop n).drop ys.length := by
    rw [List.drop_drop, Nat.add_comm]
  rw [h1, h, List.drop_left]

theorem hpL_cons_single (x d : Char) (xs : List Char) :
    hpL (x :: xs) [d] = (d == x) := by
  simp [hpL, List.isPrefixOf]

theorem hpL_nil (d : List Char) (hd : d ≠ []) : hpL [] d = false := by
  cases d with
  | nil => exact absurd rfl hd
  | cons x xs => rfl

theorem hpL_brD_append (tail : List Char) : hpL ('\r' :: '\n' :: tail) brD = true := by
  simp [hpL, brD, List.isPrefixOf]

theorem hpL_brD_cons {x : Char} (hx : x ≠ '\r') (xs : List Char) :
    hpL (x :: xs) brD = false := by
  simp [hpL, brD, List.isPrefixOf]
  intro h
  exact absurd h.symm hx

theorem acceptL_of_cons_mem (v : List Char) {l : Lexer} {c : Char} {rest : List Char}
    (h : l.input.drop l.pos = c :: rest) (hv : c ∈ v) :
    acceptL v l = (true, { l with pos := l.pos + 1, width := 1 }) := by
  rw [acceptL, nextL_of_cons h]
  simp [hv]

theorem acceptL_of_cons_not_mem (v : List Char) {l : Lexer} {c : Char} {rest : List Char}
    (h : l.input.drop l.pos = c :: rest) (hv : c ∉ v) :
    acceptL v l = (false, { l with pos := l.pos, width := 1 }) := by
  rw [acceptL, nextL_of_cons h]
  simp [hv, backupL]

theorem acceptL_of_nil (v : List Char) {l : Lexer} (h : l.input.length ≤ l.pos) :
    acceptL v l = (false, { l with pos := l.pos, width := 0 }) := by
  rw [acceptL, nextL_of_nil h]
  simp [backupL]

theorem acceptRunL_spec (v : List Char) (l : Lexer) (run rest : List Char)
    (hrun : ∀ x ∈ run, v.contains x = true)
    (hrest : ∀ c' rest', rest = c' :: rest' → v.contains c' = false)
    (hdrop : l.input.drop l.pos = run ++ rest)
    (hpos : l.pos ≤ l.input.length) :
    acceptRunL v l =
      (run.length, { l with pos := l.pos + run.length,
                            width := if rest.isEmpty then 0 else 1 }) := by
  rw [acceptRunL]
  exact acceptRunF_spec v _ l run rest hrun hrest hdrop (by omega)

/-- Split a list into its leading run of spaces and the rest. -/
theorem split_spaces (mid : List Char) :
    ∃ sp mid2, mid = sp ++ mid2 ∧ (∀ x ∈ sp, x = ' ') ∧
      (mid2 = [] ∨ ∃ y t, mid2 = y :: t ∧ y ≠ ' ') := by
  induction mid with
  | nil => exact ⟨[], [], rfl, by simp, Or.inl rfl⟩
  | cons a l ih =>
    by_cases ha : a = ' '
    · obtain ⟨sp, mid2, h1, h2, h3⟩ := ih
      refine ⟨a :: sp, mid2, by simp [h1], ?_, h3⟩
      intro x hx
      rcases List.mem_cons.mp hx with h | h
      · rw [h, ha]
      · exact h2 x h
    · exact ⟨[], a :: l, rfl, by simp, Or.inr ⟨a, l, rfl, ha⟩⟩

/-- The `lexHr` loop on a line whose remainder before the line ending is
only the marker character and spaces: it consumes the whole line body
and reports a horizontal rule. -/
theorem hrLoopF_full (c : Char) (hc : c = '-' ∨ c = '*') :
    ∀ (fuel : Nat) (l : Lexer) (mid tail : List Char),
    (∀ x ∈ mid, x = c ∨ x = ' ') →
    (mid = [] ∨ mid.head? = some c) →
    l.input.drop l.pos = mid ++ '\r' :: '\n' :: tail →
    l.input.length - l.pos < fuel →
    ∃ w, hrLoopF c fuel l =
      ({ input := l.input, start := l.start, pos := l.pos + mid.length,
         width := w }, true) := by
  intro fuel
  induction fuel with
  | zero => intro l mid tail _ _ _ hf; omega
  | succ fuel ih =>
    intro l mid tail hmid hhead hdrop hf
    cases mid with
    | nil =>
      refine ⟨l.width, ?_⟩
      simp only [List.nil_append] at hdrop
      rw [hrLoopF, hdrop, if_pos (hpL_brD_append tail)]
      simp
    | cons m mid' =>
      have hm : m = c := by
        rcases hhead with h | h
        · exact absurd h (by simp)
        · simpa using h
      subst hm
      rw [List.cons_append] at hdrop
      have hpos := drop_lt_of_cons hdrop
      have hcr : m ≠ '\r' := by rcases hc with h | h <;> simp [h]
      have hacc := acceptL_of_cons_mem [m] hdrop (by simp)
      obtain ⟨sp, mid2, hsplit, hsp, hm2⟩ := split_spaces mid'
      have hdrop1 : l.input.drop (l.pos + 1) = sp ++ (mid2 ++ '\r' :: '\n' :: tail) := by
        rw [drop_succ_of_cons hdrop, hsplit, List.append_assoc]
      have hrunspec : acceptRunL [' '] { l with pos := l.pos + 1, width := 1 } =
          (sp.length, { l with pos := l.pos + 1 + sp.length, width := 1 }) := by
        have hs := acceptRunL_spec [' ']
          { l with pos := l.pos + 1, width := 1 }
          sp (mid2 ++ '\r' :: '\n' :: tail)
          (fun x hx => by simp [hsp x hx])
          (fun c' rest' he => by
            rcases hm2 with h2 | ⟨y, t, h2, hy⟩
            · rw [h2] at he
              simp only [List.nil_append] at he
              injection he with he1 _
              rw [← he1]
              simp
            · rw [h2] at he
              simp only [List.cons_append] at he
              injection he with he1 _
              rw [← he1]
              simpa using hy)
          (by simpa using hdrop1)
          (by simp; omega)
        simpa using hs
      have hmid2mem : ∀ x ∈ mid2, x = m ∨ x = ' ' := by
        intro x hx
        exact hmid x (by
          rw [hsplit]
          simp [hx])
      have hhead2 : mid2 = [] ∨ mid2.head? = some m := by
        rcases hm2 with h2 | ⟨y, t, h2, hy⟩
        · exact Or.inl h2
        · right
          have hym : y = m := by
            rcases hmid2mem y (by rw [h2]; simp) with h | h
            · exact h
            · exact absurd h hy
          rw [h2, hym]
          rfl
      have hdrop2 : l.input.drop (l.pos + 1 + sp.length) = mid2 ++ '\r' :: '\n' :: tail := by
        have hd := drop_of_drop_append hdrop1
        simpa using hd
      have hrec := ih { l with pos := l.pos + 1 + sp.length, width := 1 } mid2 tail
        hmid2mem hhead2 (by simpa using hdrop2) (by simp; omega)
      rcases hrec with ⟨w, hw⟩
      refine ⟨w, ?_⟩
      rw [hrLoopF, hdrop, hpL_brD_cons hcr, hacc]
      simp only [Bool.false_eq_true, if_false, if_true, hrunspec]
      rw [hw]
      have harith : l.pos + 1 + sp.length + mid2.length = l.pos + (m :: mid').length := by
        have hlen : mid'.length = sp.length + mid2.length := by
          rw [hsplit]
          simp
        simp [hlen]
        omega
      simp [harith]

theorem peekL_of_cons {l : Lexer} {c : Char} {rest : List Char}
    (h : l.input.drop l.pos = c :: rest) :
    peekL l = (some c, { l with pos := l.pos, width := 1 }) := by
  rw [peekL, nextL_of_cons h]
  simp [backupL]

theorem peekL_of_nil {l : Lexer} (h : l.input.length ≤ l.pos) :
    peekL l = (none, { l with pos := l.pos, width := 0 }) := by
  rw [peekL, nextL_of_nil h]
  simp [backupL]

/-- `lexText` called at the very end of the buffer with an empty pending
span: no dispatch matches, `acceptUntilNewLine` stops at once, and
`lexTextNewLine` emits the end-of-stream token and exits the process. -/
theorem stepTextM_at_end (l : Lexer) (hpos : l.pos = l.input.length)
    (hs : l.start = l.pos) :
    ∃ l', stepTextM l = (l', [⟨.itemEOF, []⟩], .halt) := by
  have hdropnil : l.input.drop l.pos = [] := by rw [hpos]; simp
  have hscan : scanToBrL l = { l with pos := l.pos, width := 0 } := by
    have hfuel : l.input.length + 1 - l.pos = 1 := by omega
    rw [scanToBrL, hfuel, scanToBrF, hdropnil]
    rw [hpL_nil brD (by simp [brD])]
    rw [if_neg (by simp)]
    rw [peekL_of_nil (by omega)]
  have hcond : ({ l with pos := l.pos, width := 0 } : Lexer).input.length <
      ({ l with pos := l.pos, width := 0 } : Lexer).pos + 2 := by
    simp
    omega
  have hnl : lexTextNewLineM { l with pos := l.pos, width := 0 } =
      some ((emitM { l with pos := l.pos, width := 0 } .itemEOF).2,
        [⟨.itemEOF, []⟩], true) := by
    rw [lexTextNewLineM, if_pos hcond]
    simp [emitM, emitSpan, extractL, hs]
  refine ⟨(emitM { l with pos := l.pos, width := 0 } .itemEOF).2, ?_⟩
  rw [stepTextM]
  rw [hdropnil]
  rw [hpL_nil ['#'] (by simp), hpL_nil ['-'] (by simp), hpL_nil ['*'] (by simp),
    hpL_nil ['+'] (by simp), hpL_nil ['1', '.'] (by simp)]
  simp only [Bool.false_eq_true, if_false, Bool.or_self]
  rw [textRestM]
  rw [hscan]
  simp only [hnl]

/-- C4.  A line consisting of a leading `-` or `*` marker followed by any
mixture of the marker character and spaces up to the line ending is
recognised by the `markdown.go` scanner as a horizontal rule: the whole
run emits exactly one horizontal-rule token followed by the end-of-stream
token and stops.  `"---\r\n"` is the instance with two repeats. -/
theorem C4_horizontal_rule (c : Char) (mid : List Char)
    (hc : c = '-' ∨ c = '*') (hmid : ∀ x ∈ mid, x = c ∨ x = ' ') :
    ∀ f, runM (3 + f) (initL (c :: mid ++ brD)) .text =
      ([⟨.itemHr, []⟩, ⟨.itemEOF, []⟩], .halted) := by
  have hcsharp : c ≠ '#' := by rcases hc with h | h <;> simp [h]
  have hinp : (c :: mid ++ brD) = (c :: mid) ++ '\r' :: '\n' :: [] := by
    simp [brD]
  have hlen : (c :: mid ++ brD).length = mid.length + 3 := by simp [brD]
  have hdrop0 : (initL (c :: mid ++ brD)).input.drop (initL (c :: mid ++ brD)).pos =
      (c :: mid) ++ '\r' :: '\n' :: [] := by
    simp [initL, hinp]
  have h1 : stepM (initL (c :: mid ++ brD)) .text =
      (initL (c :: mid ++ brD), [], .go .hr) := by
    rw [stepM, stepTextM]
    have hs0 : (initL (c :: mid ++ brD)).input.drop (initL (c :: mid ++ brD)).pos =
        c :: (mid ++ brD) := by simp [initL]
    rw [hs0, hpL_cons_single, hpL_cons_single, hpL_cons_single]
    have hno : ('#' == c) = false := by
      rcases hc with h | h <;> simp [h]
    have hyes : (('-' == c) || ('*' == c)) = true := by
      rcases hc with h | h <;> simp [h]
    rw [hno, hyes]
    simp
  have hhr := hrLoopF_full c hc ((c :: mid ++ brD).length + 1)
    (initL (c :: mid ++ brD)) (c :: mid) [] 
    (by
      intro x hx
      rcases List.mem_cons.mp hx with h | h
      · exact Or.inl h
      · exact hmid x h)
    (by right; rfl)
    hdrop0
    (by simp [initL])
  rcases hhr with ⟨w, hw⟩
  have h2 : stepM (initL (c :: mid ++ brD)) .hr =
      ({ input := c :: mid ++ brD, start := (c :: mid ++ brD).length,
         pos := (c :: mid ++ brD).length, width := 1 },
       [⟨.itemHr, []⟩], .go .text) := by
    rw [stepM, stepHrM]
    have hhead : ((initL (c :: mid ++ brD)).input.drop
        (initL (c :: mid ++ brD)).pos).head? = some c := by
      rw [hdrop0]
      rfl
    rw [hhead]
    simp only []
    rw [hrLoopL]
    have hfuel : (initL (c :: mid ++ brD)).input.length + 1 -
        (initL (c :: mid ++ brD)).pos = (c :: mid ++ brD).length + 1 := by
      simp [initL]
    rw [hfuel, hw]
    simp only [if_true]
    have hmv : (initL (c :: mid ++ brD)).pos + (c :: mid).length = mid.length + 1 := by
      simp [initL]
    have hnn : nextNTimesL 2
        ({ input := (initL (c :: mid ++ brD)).input,
           start := (initL (c :: mid ++ brD)).start,
           pos := (initL (c :: mid ++ brD)).pos + (c :: mid).length, width := w } : Lexer) =
        { input := c :: mid ++ brD, start := 0, pos := mid.length + 3, width := 1 } := by
      rw [nextNTimesL_adds 2 _ (by omega) (by simp [initL, brD])]
      simp [initL, brD]
    rw [hnn]
    simp [ignoreL, emitM, emitSpan, extractL, hlen, brD]
  obtain ⟨l', h3⟩ := stepTextM_at_end
    { input := c :: mid ++ brD, start := (c :: mid ++ brD).length,
      pos := (c :: mid ++ brD).length, width := 1 } rfl rfl
  have h3' : stepM
      { input := c :: mid ++ brD, start := (c :: mid ++ brD).length,
        pos := (c :: mid ++ brD).length, width := 1 } .text =
      (l', [⟨.itemEOF, []⟩], .halt) := by
    rw [stepM]
    exact h3
  have hrun3 : runM 3 (initL (c :: mid ++ brD)) .text =
      ([⟨.itemHr, []⟩, ⟨.itemEOF, []⟩], .halted) := by
    show runGen stepM 3 (initL (c :: mid ++ brD)) .text = _
    rw [runGen, h1]
    simp only []
    rw [runGen, h2]
    simp only []
    rw [runGen, h3']
    simp
  intro f
  exact runGen_stable stepM 3 f _ _ _ _ hrun3 (by simp)

/-- Witness for `C4_horizontal_rule` at the input `"---\r\n"`. -/
theorem C4_horizontal_rule_witness :
    runM (3 + 0) (initL ('-' :: ['-', '-'] ++ brD)) .text =
      ([⟨.itemHr, []⟩, ⟨.itemEOF, []⟩], .halted) :=
  C4_horizontal_rule '-' ['-', '-'] (Or.inl rfl) (by decide) 0

/-! ## Every emitted token value is a verbatim source span (claim C2) -/

/-- The pending span is always a contiguous substring of the input. -/
theorem extractL_infix (l : Lexer) : extractL l <:+: l.input := by
  refine ⟨l.input.take l.start, (l.input.drop l.start).drop (l.pos - l.start), ?_⟩
  rw [extractL, List.append_assoc, List.take_append_drop, List.take_append_drop]

@[simp] theorem input_emitP (l : Lexer) (t : ItemTypeP) :
    ((emitP l t).2).input = l.input := rfl

theorem stepP_out_verbatim (l : Lexer) (s : PState) (tok : ItemP)
    (htok : tok ∈ (stepP l s).2.1) :
    tok.typ = .itemError ∨ tok.val <:+: l.input := by
  have hinfix : ∀ l' : Lexer, l'.input = l.input → ∀ t : ItemTypeP,
      tok = (emitP l' t).1 → tok.typ = .itemError ∨ tok.val <:+: l.input := by
    intro l' hl t he
    right
    rw [he]
    simp only [emitP, emitSpan]
    rw [← hl]
    exact extractL_infix l'
  cases s with
  | block =>
    replace htok : tok ∈ (stepBlock l).2.1 := htok
    simp only [stepBlock] at htok
    repeat' split at htok
    all_goals try simp only [List.mem_cons, List.mem_singleton, List.not_mem_nil,
      or_false] at htok
    all_goals first
      | exact hinfix _ (by simp) _ htok
      | (rw [htok]; exact Or.inl rfl)
      | (rcases htok with htok | htok
         · first
             | exact hinfix _ (by simp) _ rfl
             | exact hinfix _ (by simp) _ htok
         · first
             | exact hinfix _ (by simp) _ rfl
             | exact Or.inl rfl
             | exact hinfix _ (by simp) _ htok
             | (rw [htok]; exact Or.inl rfl)
             | (rcases htok with htok | htok
                · first
                    | exact hinfix _ (by simp) _ rfl
                    | exact hinfix _ (by simp) _ htok
                · first
                    | exact hinfix _ (by simp) _ rfl
                    | exact Or.inl rfl
                    | exact hinfix _ (by simp) _ htok
                    | (rw [htok]; exact Or.inl rfl)))
  | paragraph t =>
    replace htok : tok ∈ (stepParagraph t l).2.1 := htok
    simp only [stepParagraph] at htok
    repeat' split at htok
    all_goals simp at htok
  | paraLoop t =>
    replace htok : tok ∈ (stepParaLoop t l).2.1 := htok
    simp only [stepParaLoop] at htok
    repeat' split at htok
    all_goals try simp only [List.mem_cons, List.mem_singleton, List.not_mem_nil,
      or_false] at htok
    all_goals first
      | exact hinfix _ (by simp) _ htok
      | (rw [htok]; exact Or.inl rfl)
      | (rcases htok with htok | htok
         · first
             | exact hinfix _ (by simp) _ rfl
             | exact hinfix _ (by simp) _ htok
         · first
             | exact hinfix _ (by simp) _ rfl
             | exact Or.inl rfl
             | exact hinfix _ (by simp) _ htok
             | (rw [htok]; exact Or.inl rfl)
             | (rcases htok with htok | htok
                · first
                    | exact hinfix _ (by simp) _ rfl
                    | exact hinfix _ (by simp) _ htok
                · first
                    | exact hinfix _ (by simp) _ rfl
                    | exact Or.inl rfl
                    | exact hinfix _ (by simp) _ htok
                    | (rw [htok]; exact Or.inl rfl)))
  | atxHeader =>
    replace htok : tok ∈ (stepAtx l).2.1 := htok
    simp only [stepAtx] at htok
    repeat' split at htok
    all_goals try simp only [List.mem_cons, List.mem_singleton, List.not_mem_nil,
      or_false] at htok
    all_goals first
      | exact hinfix _ (by simp) _ htok
      | (rw [htok]; exact Or.inl rfl)
      | (rcases htok with htok | htok
         · first
             | exact hinfix _ (by simp) _ rfl
             | exact hinfix _ (by simp) _ htok
         · first
             | exact hinfix _ (by simp) _ rfl
             | exact Or.inl rfl
             | exact hinfix _ (by simp) _ htok
             | (rw [htok]; exact Or.inl rfl)
             | (rcases htok with htok | htok
                · first
                    | exact hinfix _ (by simp) _ rfl
                    | exact hinfix _ (by simp) _ htok
                · first
                    | exact hinfix _ (by simp) _ rfl
                    | exact Or.inl rfl
                    | exact hinfix _ (by simp) _ htok
                    | (rw [htok]; exact Or.inl rfl)))
  | ul =>
    replace htok : tok ∈ (stepUl l).2.1 := htok
    simp only [stepUl] at htok
    repeat' split at htok
    all_goals try simp only [List.mem_cons, List.mem_singleton, List.not_mem_nil,
      or_false] at htok
    all_goals first
      | exact hinfix _ (by simp) _ htok
      | (rw [htok]; exact Or.inl rfl)
      | (rcases htok with htok | htok
         · first
             | exact hinfix _ (by simp) _ rfl
             | exact hinfix _ (by simp) _ htok
         · first
             | exact hinfix _ (by simp) _ rfl
             | exact Or.inl rfl
             | exact hinfix _ (by simp) _ htok
             | (rw [htok]; exact Or.inl rfl)
             | (rcases htok with htok | htok
                · first
                    | exact hinfix _ (by simp) _ rfl
                    | exact hinfix _ (by simp) _ htok
                · first
                    | exact hinfix _ (by simp) _ rfl
                    | exact Or.inl rfl
                    | exact hinfix _ (by simp) _ htok
                    | (rw [htok]; exact Or.inl rfl)))
  | setText =>
    replace htok : tok ∈ ([] : List ItemP) := htok
    simp at htok

theorem stepP_input (l : Lexer) (s : PState) : ((stepP l s).1).input = l.input := by
  cases s with
  | block =>
    show ((stepBlock l).1).input = l.input
    simp only [stepBlock]
    repeat' split
    all_goals simp
  | paragraph t =>
    show ((stepParagraph t l).1).input = l.input
    simp only [stepParagraph]
    repeat' split
    all_goals simp
  | paraLoop t =>
    show ((stepParaLoop t l).1).input = l.input
    simp only [stepParaLoop]
    repeat' split
    all_goals simp [backupL]
  | atxHeader =>
    show ((stepAtx l).1).input = l.input
    simp only [stepAtx]
    repeat' split
    all_goals simp [ignoreNextL]
  | ul =>
    show ((stepUl l).1).input = l.input
    simp only [stepUl]
    repeat' split
    all_goals simp [ignoreNextL]
  | setText => rfl

/-- C2 amended.  Every token the scanner ever emits, except error tokens
(whose value is a diagnostic message), carries a verbatim contiguous span
of the source text: the pending span `input[start:pos]` cut by `emit`.
Reconstruction of the full source still fails — see the counterexample —
because the spans of delimiters discarded by `ignore`/`ignoreNext` appear
in no token. -/
theorem C2_tokens_are_source_spans (input : List Char) (fuel : Nat) (tok : ItemP)
    (htok : tok ∈ (runP fuel (initL input) .block).1) :
    tok.typ = .itemError ∨ tok.val <:+: input := by
  suffices h : ∀ (fuel : Nat) (l : Lexer) (s : PState) (tok : ItemP),
      tok ∈ (runGen stepP fuel l s).1 → tok.typ = .itemError ∨ tok.val <:+: l.input by
    simpa [initL] using h fuel (initL input) .block tok htok
  intro fuel
  induction fuel with
  | zero => intro l s tok h; simp [runGen] at h
  | succ fuel ih =>
    intro l s tok h
    rw [runGen] at h
    rcases hs : stepP l s with ⟨l', out, nx⟩
    rw [hs] at h
    cases nx with
    | halt =>
      simp only at h
      have := stepP_out_verbatim l s tok (by rw [hs]; exact h)
      exact this
    | crash =>
      simp only at h
      exact stepP_out_verbatim l s tok (by rw [hs]; exact h)
    | go s' =>
      simp only [List.mem_append] at h
      rcases h with h | h
      · exact stepP_out_verbatim l s tok (by rw [hs]; exact h)
      · have hl' : l'.input = l.input := by
          have h2 : (stepP l s).1 = l' := by rw [hs]
          rw [← h2]
          exact stepP_input l s
        have := ih l' s' tok h
        rw [hl'] at this
        exact this

/-- Witness for `C2_tokens_are_source_spans` at the heading token of
`"# Title\r\n"`: its value `"Title"` is a contiguous span of the input. -/
theorem C2_tokens_are_source_spans_witness :
    (⟨.itemH1, ("Title").data⟩ : ItemP).typ = .itemError ∨
      (⟨.itemH1, ("Title").data⟩ : ItemP).val <:+: ("# Title\r\n").data :=
  C2_tokens_are_source_spans (("# Title\r\n").data) 3 ⟨.itemH1, ("Title").data⟩
    (by decide)
